import Mathlib

/-!
Verification of the quantum-metric-learning tutorial pipeline
(Embedding_Generalization, ants/bees PCA notebook).

The development shallowly embeds the notebook's core functions:
the two-qubit embedding ansatz (`feature_encoding_hamiltonian`,
`ising_hamiltonian`, `QAOAEmbedding`) as an explicit operation list with a
complex-amplitude state semantics, the five-qubit swap-test circuit
(`swap_test`), the pairwise overlap aggregation (`overlaps`), the training
cost (`cost`), the KNN-style classifier (`predict`) and the derived
confusion-matrix metrics.  Real arithmetic models the floating point of the
original, rationals model Python's true division of integer tallies, and
`PyResult` models a Python call that may raise `ZeroDivisionError`.
-/

open ComplexConjugate

noncomputable section

namespace EmbGen

/-- Amplitudes of a two-qubit register: `ψ b0 b1` is the amplitude of basis
state `|b0 b1⟩` of the register pair targeted by the embedding. -/
abbrev TwoQ : Type := Bool → Bool → ℂ

/-- Amplitudes of the five-qubit swap-test device (`n_qubits = 2*2+1`):
wire 0 is the ancilla, wires 1,2 hold the first embedded point and
wires 3,4 the second. -/
abbrev FiveQ : Type := Bool → Bool → Bool → Bool → Bool → ℂ

/-- Elementary operations emitted by the ansatz onto a register pair;
the `Fin 2` argument is the position inside the pair of wires the
embedding targets ([1,2] or [3,4] on the device). -/
inductive Op : Type
  | rx (angle : ℝ) (wire : Fin 2)
  | ry (angle : ℝ) (wire : Fin 2)
  | rz (angle : ℝ) (wire : Fin 2)
  | cnot (control target : Fin 2)

/-- Matrix of the RX rotation: `exp(-i θ X / 2)`. -/
def rxMat (θ : ℝ) : Bool → Bool → ℂ := fun b c =>
  if b = c then (Real.cos (θ / 2) : ℂ) else -Complex.I * (Real.sin (θ / 2) : ℂ)

/-- Matrix of the RY rotation: `exp(-i θ Y / 2)`. -/
def ryMat (θ : ℝ) : Bool → Bool → ℂ := fun b c =>
  if b = c then (Real.cos (θ / 2) : ℂ)
  else if b = false then -(Real.sin (θ / 2) : ℂ) else (Real.sin (θ / 2) : ℂ)

/-- Matrix of the RZ rotation: `diag(exp(-iθ/2), exp(iθ/2))`. -/
def rzMat (θ : ℝ) : Bool → Bool → ℂ := fun b c =>
  if b = c then
    (if b then Complex.exp (Complex.I * (θ / 2 : ℝ)) else Complex.exp (-(Complex.I * (θ / 2 : ℝ))))
  else 0

/-- Apply a one-qubit gate with matrix `g` at position `w` of a register pair. -/
def app1 (g : Bool → Bool → ℂ) (w : Fin 2) (ψ : TwoQ) : TwoQ := fun b0 b1 =>
  if w = 0 then g b0 false * ψ false b1 + g b0 true * ψ true b1
  else g b1 false * ψ b0 false + g b1 true * ψ b0 true

/-- Apply a CNOT with the given control and target positions of a register
pair (the ansatz always uses control 1, target 0). -/
def appCNOT (c t : Fin 2) (ψ : TwoQ) : TwoQ := fun b0 b1 =>
  if t = 0 then ψ (xor b0 (if c = 0 then b0 else b1)) b1
  else ψ b0 (xor b1 (if c = 0 then b0 else b1))

/-- State semantics of one elementary operation. -/
def applyOp : Op → TwoQ → TwoQ
  | Op.rx θ w => app1 (rxMat θ) w
  | Op.ry θ w => app1 (ryMat θ) w
  | Op.rz θ w => app1 (rzMat θ) w
  | Op.cnot c t => appCNOT c t

/-- Sequential execution of an operation list (gates act in list order). -/
def applyOps (ops : List Op) (ψ : TwoQ) : TwoQ := ops.foldl (fun ψ op => applyOp op ψ) ψ

/-- `feature_encoding_hamiltonian(features, wires)`: one RX per position,
keyed by the feature value at that index. -/
def feature_encoding_hamiltonian (x : ℝ × ℝ) : List Op := [Op.rx x.1 0, Op.rx x.2 1]

/-- `ising_hamiltonian(weights, wires, l)`: ZZ coupling (CNOT, RZ by the
layer's first weight, CNOT) followed by the local fields (one RY per
position by the layer's remaining weights). -/
def ising_hamiltonian (w : ℝ × ℝ × ℝ) : List Op :=
  [Op.cnot 1 0, Op.rz w.1 0, Op.cnot 1 0, Op.ry w.2.1 0, Op.ry w.2.2 1]

/-- `QAOAEmbedding(features, weights, wires)`: for each of the
`len(weights)` layers the feature-encoding layer then the Ising layer,
and the feature-encoding layer once more at the end. -/
def QAOAEmbedding (x : ℝ × ℝ) (ws : List (ℝ × ℝ × ℝ)) : List Op :=
  ws.foldl (fun ops w => ops ++ feature_encoding_hamiltonian x ++ ising_hamiltonian w) []
    ++ feature_encoding_hamiltonian x

/-- The all-zero two-qubit state `|00⟩`. -/
def init2 : TwoQ := fun b0 b1 => if b0 = false ∧ b1 = false then 1 else 0

/-- The state a feature pair is embedded into by the ansatz. -/
def embedState (x : ℝ × ℝ) (ws : List (ℝ × ℝ × ℝ)) : TwoQ :=
  applyOps (QAOAEmbedding x ws) init2

/-- The all-zero five-qubit state of the device. -/
def init5 : FiveQ := fun b0 b1 b2 b3 b4 =>
  if b0 = false ∧ b1 = false ∧ b2 = false ∧ b3 = false ∧ b4 = false then 1 else 0

/-- Act with a two-qubit operator on wires 1,2 of the device (identity on
the other wires). -/
def liftReg12 (f : TwoQ → TwoQ) (Ψ : FiveQ) : FiveQ := fun b0 b1 b2 b3 b4 =>
  f (fun c1 c2 => Ψ b0 c1 c2 b3 b4) b1 b2

/-- Act with a two-qubit operator on wires 3,4 of the device. -/
def liftReg34 (f : TwoQ → TwoQ) (Ψ : FiveQ) : FiveQ := fun b0 b1 b2 b3 b4 =>
  f (fun c3 c4 => Ψ b0 b1 b2 c3 c4) b3 b4

/-- Hadamard on the ancilla wire 0. -/
def hGate0 (Ψ : FiveQ) : FiveQ := fun b0 b1 b2 b3 b4 =>
  (Ψ false b1 b2 b3 b4 + (if b0 then -1 else 1) * Ψ true b1 b2 b3 b4) / (Real.sqrt 2 : ℂ)

/-- CSWAP on wires [0, 1, 3]. -/
def cswap013 (Ψ : FiveQ) : FiveQ := fun b0 b1 b2 b3 b4 =>
  if b0 then Ψ b0 b3 b2 b1 b4 else Ψ b0 b1 b2 b3 b4

/-- CSWAP on wires [0, 2, 4]. -/
def cswap024 (Ψ : FiveQ) : FiveQ := fun b0 b1 b2 b3 b4 =>
  if b0 then Ψ b0 b1 b4 b3 b2 else Ψ b0 b1 b2 b3 b4

/-- Expectation value of PauliZ on the ancilla wire 0. -/
def expvalZ0 (Ψ : FiveQ) : ℝ :=
  ∑ b0, ∑ b1, ∑ b2, ∑ b3, ∑ b4,
    (if b0 then (-1 : ℝ) else 1) * Complex.normSq (Ψ b0 b1 b2 b3 b4)

/-- `swap_test(q_weights, x1, x2)`: embed `x1` on wires [1,2] and `x2` on
wires [3,4], run the swap test (Hadamard, the two CSWAPs, Hadamard) and
return the PauliZ expectation on the ancilla. -/
def swap_test (q_weights : List (ℝ × ℝ × ℝ)) (x1 x2 : ℝ × ℝ) : ℝ :=
  expvalZ0 (hGate0 (cswap024 (cswap013 (hGate0
    (liftReg34 (applyOps (QAOAEmbedding x2 q_weights))
      (liftReg12 (applyOps (QAOAEmbedding x1 q_weights)) init5))))))

/-- The parameter bundle `[linear_layer, q_weights]`: the classical
projection matrix of shape (2, n) and the quantum weight tensor
(one row of n_features+1 = 3 reals per layer). -/
structure Pars (n : ℕ) where
  linear : Fin 2 → Fin n → ℝ
  quantum : List (ℝ × ℝ × ℝ)

/-- `linear_layer @ x`: project a raw feature vector to the two
intermediate values fed to the ansatz. -/
def matvec {n : ℕ} (M : Fin 2 → Fin n → ℝ) (x : Fin n → ℝ) : ℝ × ℝ :=
  (∑ j, M 0 j * x j, ∑ j, M 1 j * x j)

/-- The overlap of a single pair of raw feature vectors: the body of the
double loop of `overlaps` (project both inputs, then swap test). -/
def overlap {n : ℕ} (w : Pars n) (x1 x2 : Fin n → ℝ) : ℝ :=
  swap_test w.quantum (matvec w.linear x1) (matvec w.linear x2)

/-- `overlaps(weights, X1, X2)`: accumulate the swap-test value over the
double loop and divide by `len(X1) * len(X2)` (total semantics; Lean's
division by zero returns 0, the faulting behaviour is `overlapsRun`). -/
def overlaps {n : ℕ} (w : Pars n) (X1 X2 : List (Fin n → ℝ)) : ℝ :=
  ((X1.map fun x1 => (X2.map fun x2 =>
    swap_test w.quantum (matvec w.linear x1) (matvec w.linear x2)).sum).sum)
  / ((X1.length : ℝ) * (X2.length : ℝ))

/-- Outcome of a Python computation: a returned value, a raised
`ZeroDivisionError`, or a (hypothetical, spec-demanded) explicit
"undefined metric" report. -/
inductive PyResult (α : Type) : Type
  | ok (value : α)
  | zeroDivisionFault
  | undefinedMetricReport
deriving DecidableEq

/-- Exception propagation through a Python computation. -/
def PyResult.bind {α β : Type} : PyResult α → (α → PyResult β) → PyResult β
  | PyResult.ok a, f => f a
  | PyResult.zeroDivisionFault, _ => PyResult.zeroDivisionFault
  | PyResult.undefinedMetricReport, _ => PyResult.undefinedMetricReport

/-- Python's division of a float by an int: raises `ZeroDivisionError`
exactly when the denominator is the integer 0. -/
def rdivNat (a : ℝ) (b : ℕ) : PyResult ℝ :=
  if b = 0 then PyResult.zeroDivisionFault else PyResult.ok (a / (b : ℝ))

/-- Execution model of `overlaps`: the final division
`overlap / (len(X1) * len(X2))` raises when either list is empty. -/
def overlapsRun {n : ℕ} (w : Pars n) (X1 X2 : List (Fin n → ℝ)) : PyResult ℝ :=
  rdivNat ((X1.map fun x1 => (X2.map fun x2 =>
    swap_test w.quantum (matvec w.linear x1) (matvec w.linear x2)).sum).sum)
    (X1.length * X2.length)

/-- `cost(weights, A, B)`: the Hilbert-Schmidt-distance surrogate built
from the intra- and inter-class mean overlaps. -/
def cost {n : ℕ} (w : Pars n) (A B : List (Fin n → ℝ)) : ℝ :=
  let aa := overlaps w A A
  let bb := overlaps w B B
  let ab := overlaps w A B
  let d_hs := -2 * ab + (aa + bb)
  1 - 0.5 * d_hs

/-- The spec's description of `mean_overlap`: the arithmetic mean of
`overlap` over every ordered pair drawn from the two lists (stated over
the explicit pair list; compared against the source's `overlaps`). -/
def mean_overlap {n : ℕ} (w : Pars n) (X Y : List (Fin n → ℝ)) : ℝ :=
  ((X ×ˢ Y).map fun p => overlap w p.1 p.2).sum
  / ((X.length : ℝ) * (Y.length : ℝ))

/-- The classifier's prediction score for one query: `n_samples` draws
from the labeled training pool (the random stream is passed explicitly as
`rnd`), each contributing `label * overlap`, divided by `n_samples`. -/
def predictScoreN {n : ℕ} (w : Pars n) (pool : List ((Fin n → ℝ) × ℝ))
    (rnd : ℕ → Fin pool.length) (n_samples : ℕ) (x_new : Fin n → ℝ) : ℝ :=
  (((List.range n_samples).map fun s =>
    (pool.get (rnd s)).2 * overlaps w [(pool.get (rnd s)).1] [x_new]).sum)
  / (n_samples : ℝ)

/-- The sign rule of the classifier: negative scores are called "Bee"
(class A, label -1), non-negative scores "Ant" (class B, label +1). -/
def predictedClass (score : ℝ) : String := if score < 0 then "Bee" else "Ant"

/-- The confusion tally `(truepos, falseneg, falsepos, trueneg)` returned
by `predict`. -/
structure Tally where
  tp : ℕ
  fn : ℕ
  fp : ℕ
  tn : ℕ
deriving DecidableEq

/-- One iteration of the `predict` loop at query index `i`: take the query
from the class-A validation list when `choice = 0` and from the class-B
list otherwise, score it, and bump the tally according to the sign rule. -/
def predictStep {n : ℕ} (w : Pars n) (pool : List ((Fin n → ℝ) × ℝ))
    (Aval Bval : List (Fin n → ℝ)) (rnd : ℕ → ℕ → Fin pool.length)
    (n_samples choice : ℕ) (t : Tally) (i : ℕ) : Tally :=
  let x_new := if choice = 0 then Aval.getD i (fun _ => 0) else Bval.getD i (fun _ => 0)
  let prediction := predictScoreN w pool (rnd i) n_samples x_new
  if prediction < 0 then
    (if choice = 0 then { t with tp := t.tp + 1 } else { t with fp := t.fp + 1 })
  else
    (if choice = 0 then { t with fn := t.fn + 1 } else { t with tn := t.tn + 1 })

/-- `predict(n_samples, pred_low, pred_high, choice)`: loop over the query
indices in `range(pred_low, pred_high)`, starting from the zero tally. -/
def predict {n : ℕ} (w : Pars n) (pool : List ((Fin n → ℝ) × ℝ))
    (Aval Bval : List (Fin n → ℝ)) (rnd : ℕ → ℕ → Fin pool.length)
    (n_samples pred_low pred_high choice : ℕ) : Tally :=
  (List.range' pred_low (pred_high - pred_low)).foldl
    (predictStep w pool Aval Bval rnd n_samples choice)
    { tp := 0, fn := 0, fp := 0, tn := 0 }

/-- Python's true division of two rationals (the tallies are ints, the
division produces a float): raises `ZeroDivisionError` on denominator 0. -/
def qdiv (a b : ℚ) : PyResult ℚ :=
  if b = 0 then PyResult.zeroDivisionFault else PyResult.ok (a / b)

/-- `precision = totals[0] / (totals[0] + totals[2])`, unguarded. -/
def precisionOf (t : Tally) : PyResult ℚ := qdiv (t.tp : ℚ) ((t.tp : ℚ) + (t.fp : ℚ))

/-- `recall = totals[0] / (totals[0] + totals[1])`, unguarded. -/
def recallOf (t : Tally) : PyResult ℚ := qdiv (t.tp : ℚ) ((t.tp : ℚ) + (t.fn : ℚ))

/-- `accuracy = (totals[0] + totals[3]) / (totals[0] + totals[1] + totals[2] + totals[3])`. -/
def accuracyOf (t : Tally) : PyResult ℚ :=
  qdiv ((t.tp : ℚ) + (t.tn : ℚ)) ((t.tp : ℚ) + (t.fn : ℚ) + (t.fp : ℚ) + (t.tn : ℚ))

/-- `specificity = totals[3] / (totals[3] + totals[2])`, unguarded. -/
def specificityOf (t : Tally) : PyResult ℚ := qdiv (t.tn : ℚ) ((t.tn : ℚ) + (t.fp : ℚ))

/-- `f1 = (2 * precision * recall) / (precision + recall)`; any raised
`ZeroDivisionError` of the factors propagates. -/
def f1Of (t : Tally) : PyResult ℚ :=
  (precisionOf t).bind fun p => (recallOf t).bind fun r => qdiv (2 * p * r) (p + r)

/-- Modelled from the spec: a precision computation whose division-by-zero
is "explicitly guarded and reported as an undefined-metric condition"
(section 7 of the spec); stated only to be compared with the source's
unguarded `precisionOf`. -/
def precisionGuardedSpec (t : Tally) : PyResult ℚ :=
  if (t.tp : ℚ) + (t.fp : ℚ) = 0 then PyResult.undefinedMetricReport
  else PyResult.ok ((t.tp : ℚ) / ((t.tp : ℚ) + (t.fp : ℚ)))

/-- Pointwise scaling of a register state by a complex scalar. -/
def scale (s : ℂ) (ψ : TwoQ) : TwoQ := fun b0 b1 => s * ψ b0 b1

/-- The Hermitian inner product of two register states. -/
def inner2 (ψ φ : TwoQ) : ℂ := ∑ b0, ∑ b1, conj (ψ b0 b1) * φ b0 b1

/-- The squared two-norm of a register state. -/
def norm2 (ψ : TwoQ) : ℝ := ∑ b0, ∑ b1, Complex.normSq (ψ b0 b1)

/-- The product state ancilla ⊗ register(1,2) ⊗ register(3,4). -/
def prod5 (anc : Bool → ℂ) (ψ φ : TwoQ) : FiveQ := fun b0 b1 b2 b3 b4 =>
  anc b0 * ψ b1 b2 * φ b3 b4

/-- The ancilla state `|0⟩`. -/
def ancilla0 : Bool → ℂ := fun b => if b = false then 1 else 0

/-- Recognize a feature-encoding rotation. -/
def Op.isRX : Op → Bool
  | Op.rx _ _ => true
  | _ => false

/-- Recognize a coupling CNOT. -/
def Op.isCNOT : Op → Bool
  | Op.cnot _ _ => true
  | _ => false

/-- Recognize the coupling's RZ. -/
def Op.isRZ : Op → Bool
  | Op.rz _ _ => true
  | _ => false

/-- Recognize a local-field rotation. -/
def Op.isRY : Op → Bool
  | Op.ry _ _ => true
  | _ => false

/-- A concrete raw feature vector (one PCA component, value 0), used to
instantiate universally quantified statements at a checkable input. -/
def vecZero : Fin 1 → ℝ := fun _ => 0

/-- A concrete parameter bundle: zero projection matrix and an empty
weight tensor (zero ansatz layers). -/
def parsZero : Pars 1 := { linear := fun _ _ => 0, quantum := [] }

/-- A concrete one-element labeled training pool. -/
def poolZero : List ((Fin 1 → ℝ) × ℝ) := [(vecZero, 1)]

/-- A concrete random stream over the one-element pool. -/
def rndZero : ℕ → Fin poolZero.length := fun _ => ⟨0, by simp [poolZero]⟩

/-! Helper lemmas. -/

theorem applyOps_append (l1 l2 : List Op) (ψ : TwoQ) :
    applyOps (l1 ++ l2) ψ = applyOps l2 (applyOps l1 ψ) :=
  List.foldl_append _ _ _ _

theorem foldl_emit (x : ℝ × ℝ) (ws : List (ℝ × ℝ × ℝ)) (a : List Op) :
    ws.foldl (fun ops w => ops ++ feature_encoding_hamiltonian x ++ ising_hamiltonian w) a
      = a ++ (ws.map fun w => feature_encoding_hamiltonian x ++ ising_hamiltonian w).flatten := by
  induction ws generalizing a with
  | nil => simp
  | cons w ws ih =>
    rw [List.foldl_cons, ih]
    simp [List.append_assoc]

theorem QAOAEmbedding_join (x : ℝ × ℝ) (ws : List (ℝ × ℝ × ℝ)) :
    QAOAEmbedding x ws
      = ((ws.map fun w => feature_encoding_hamiltonian x ++ ising_hamiltonian w).flatten)
        ++ feature_encoding_hamiltonian x := by
  unfold QAOAEmbedding
  rw [foldl_emit]
  simp

theorem applyOp_scale (op : Op) (s : ℂ) (ψ : TwoQ) :
    applyOp op (scale s ψ) = scale s (applyOp op ψ) := by
  cases op <;> funext b0 b1 <;>
    simp only [applyOp, app1, appCNOT, scale] <;> split_ifs <;> ring

theorem applyOps_scale (l : List Op) (s : ℂ) (ψ : TwoQ) :
    applyOps l (scale s ψ) = scale s (applyOps l ψ) := by
  induction l generalizing ψ with
  | nil => rfl
  | cons op l ih =>
    have h1 : applyOps (op :: l) (scale s ψ) = applyOps l (applyOp op (scale s ψ)) := rfl
    have h2 : applyOps (op :: l) ψ = applyOps l (applyOp op ψ) := rfl
    rw [h1, h2, applyOp_scale, ih]

theorem liftReg12_applyOps (l : List Op) (a : Bool → ℂ) (ψ φ : TwoQ) :
    liftReg12 (applyOps l) (prod5 a ψ φ) = prod5 a (applyOps l ψ) φ := by
  funext b0 b1 b2 b3 b4
  have h : (fun c1 c2 => prod5 a ψ φ b0 c1 c2 b3 b4) = scale (a b0 * φ b3 b4) ψ := by
    funext c1 c2
    simp only [prod5, scale]
    ring
  simp only [liftReg12]
  rw [h, applyOps_scale]
  simp only [scale, prod5]
  ring

theorem liftReg34_applyOps (l : List Op) (a : Bool → ℂ) (ψ φ : TwoQ) :
    liftReg34 (applyOps l) (prod5 a ψ φ) = prod5 a ψ (applyOps l φ) := by
  funext b0 b1 b2 b3 b4
  have h : (fun c3 c4 => prod5 a ψ φ b0 b1 b2 c3 c4) = scale (a b0 * ψ b1 b2) φ := by
    funext c3 c4
    simp only [prod5, scale]
  simp only [liftReg34]
  rw [h, applyOps_scale]
  simp only [scale, prod5]

theorem init5_prod : init5 = prod5 ancilla0 init2 init2 := by
  funext b0 b1 b2 b3 b4
  cases b0 <;> cases b1 <;> cases b2 <;> cases b3 <;> cases b4 <;>
    simp [init5, prod5, ancilla0, init2]

theorem sqrt2_sq : (Real.sqrt 2 : ℂ) * (Real.sqrt 2 : ℂ) = 2 := by
  have h := Real.mul_self_sqrt (by norm_num : (0 : ℝ) ≤ 2)
  calc (Real.sqrt 2 : ℂ) * (Real.sqrt 2 : ℂ)
      = ((Real.sqrt 2 * Real.sqrt 2 : ℝ) : ℂ) := by push_cast; ring
    _ = ((2 : ℝ) : ℂ) := by rw [h]
    _ = 2 := by norm_num

theorem sqrt2_ne_zero : (Real.sqrt 2 : ℂ) ≠ 0 := by
  have h : (0 : ℝ) < Real.sqrt 2 := Real.sqrt_pos.mpr (by norm_num)
  exact_mod_cast h.ne'

/-- State of the device after the swap-test tail (Hadamard, the two CSWAPs,
Hadamard) on the product state of the two embedded registers. -/
theorem post_circuit (ψ φ : TwoQ) (b0 b1 b2 b3 b4 : Bool) :
    hGate0 (cswap024 (cswap013 (hGate0 (prod5 ancilla0 ψ φ)))) b0 b1 b2 b3 b4
      = (ψ b1 b2 * φ b3 b4 + (if b0 then (-1 : ℂ) else 1) * (ψ b3 b4 * φ b1 b2)) / 2 := by
  simp only [hGate0, cswap013, cswap024, prod5, ancilla0]
  cases b0
  case false =>
    norm_num
    rw [div_add_div_same, div_div, sqrt2_sq]
  case true =>
    norm_num
    rw [← neg_div, div_add_div_same, div_div, sqrt2_sq]

theorem normSq_pm (u v : ℂ) :
    (-1 : ℝ) * Complex.normSq ((u + (-1 : ℂ) * v) / 2) + 1 * Complex.normSq ((u + 1 * v) / 2)
      = (u * conj v).re := by
  have h4 : Complex.normSq 2 = 4 := by norm_num [Complex.normSq_apply]
  simp only [neg_one_mul, one_mul, ← sub_eq_add_neg]
  rw [Complex.normSq_div, Complex.normSq_div, h4, Complex.normSq_sub, Complex.normSq_add]
  ring

theorem sum4_re (f : Bool → Bool → Bool → Bool → ℂ) :
    (∑ b1, ∑ b2, ∑ b3, ∑ b4, (f b1 b2 b3 b4).re)
      = (∑ b1, ∑ b2, ∑ b3, ∑ b4, f b1 b2 b3 b4).re := by
  simp [Complex.re_sum]

theorem sum_factor (ψ φ : TwoQ) :
    (∑ b1, ∑ b2, ∑ b3, ∑ b4, (ψ b1 b2 * φ b3 b4) * conj (ψ b3 b4 * φ b1 b2))
      = conj (inner2 ψ φ) * inner2 ψ φ := by
  simp only [inner2, Fintype.sum_bool, map_add, map_mul, Complex.conj_conj]
  ring

/-- The swap-test tail turns the product of the two embedded states into
the squared magnitude of their inner product. -/
theorem swap_core (ψ φ : TwoQ) :
    expvalZ0 (hGate0 (cswap024 (cswap013 (hGate0 (prod5 ancilla0 ψ φ)))))
      = Complex.normSq (inner2 ψ φ) := by
  have h1 : expvalZ0 (hGate0 (cswap024 (cswap013 (hGate0 (prod5 ancilla0 ψ φ)))))
      = ∑ b1, ∑ b2, ∑ b3, ∑ b4, ((ψ b1 b2 * φ b3 b4) * conj (ψ b3 b4 * φ b1 b2)).re := by
    simp only [expvalZ0, post_circuit]
    rw [Fintype.sum_bool, ← Finset.sum_add_distrib]
    refine Finset.sum_congr rfl fun b1 _ => ?_
    rw [← Finset.sum_add_distrib]
    refine Finset.sum_congr rfl fun b2 _ => ?_
    rw [← Finset.sum_add_distrib]
    refine Finset.sum_congr rfl fun b3 _ => ?_
    rw [← Finset.sum_add_distrib]
    refine Finset.sum_congr rfl fun b4 _ => ?_
    exact normSq_pm (ψ b1 b2 * φ b3 b4) (ψ b3 b4 * φ b1 b2)
  rw [h1, sum4_re, sum_factor, mul_comm (conj (inner2 ψ φ)) (inner2 ψ φ), Complex.mul_conj]
  simp

/-- The swap test computes the squared magnitude of the inner product of
the two embedded states. -/
theorem swap_test_eq (q : List (ℝ × ℝ × ℝ)) (x1 x2 : ℝ × ℝ) :
    swap_test q x1 x2 = Complex.normSq (inner2 (embedState x1 q) (embedState x2 q)) := by
  unfold swap_test
  rw [init5_prod, liftReg12_applyOps, liftReg34_applyOps]
  exact swap_core _ _

theorem inner2_self (ψ : TwoQ) : inner2 ψ ψ = ((norm2 ψ : ℝ) : ℂ) := by
  have h : ∀ z : ℂ, conj z * z = ((Complex.normSq z : ℝ) : ℂ) := fun z => by
    rw [mul_comm, Complex.mul_conj]
  simp only [inner2, norm2, Fintype.sum_bool, h]
  push_cast
  ring

/-- A one-qubit gate with orthonormal columns preserves the squared norm. -/
theorem app1_norm2 (g : Bool → Bool → ℂ) (w : Fin 2) (ψ : TwoQ)
    (h00 : conj (g false false) * g false false + conj (g true false) * g true false = 1)
    (h11 : conj (g false true) * g false true + conj (g true true) * g true true = 1)
    (h01 : conj (g false false) * g false true + conj (g true false) * g true true = 0)
    (h10 : conj (g false true) * g false false + conj (g true true) * g true false = 0) :
    norm2 (app1 g w ψ) = norm2 ψ := by
  have key : inner2 (app1 g w ψ) (app1 g w ψ) = inner2 ψ ψ := by
    by_cases hw : w = 0
    · simp only [inner2, app1, hw, eq_self_iff_true, if_true, Fintype.sum_bool, map_add, map_mul]
      linear_combination
        (conj (ψ false false) * ψ false false + conj (ψ false true) * ψ false true) * h00
        + (conj (ψ true false) * ψ true false + conj (ψ true true) * ψ true true) * h11
        + (conj (ψ false false) * ψ true false + conj (ψ false true) * ψ true true) * h01
        + (conj (ψ true false) * ψ false false + conj (ψ true true) * ψ false true) * h10
    · simp only [inner2, app1, if_neg hw, Fintype.sum_bool, map_add, map_mul]
      linear_combination
        (conj (ψ false false) * ψ false false + conj (ψ true false) * ψ true false) * h00
        + (conj (ψ false true) * ψ false true + conj (ψ true true) * ψ true true) * h11
        + (conj (ψ false false) * ψ false true + conj (ψ true false) * ψ true true) * h01
        + (conj (ψ false true) * ψ false false + conj (ψ true true) * ψ true false) * h10
  have c1 := inner2_self (app1 g w ψ)
  have c2 := inner2_self ψ
  rw [c1, c2] at key
  exact_mod_cast key

theorem cos_sq_add_sin_sq_complex (a : ℝ) :
    ((Real.cos a : ℂ)) * (Real.cos a : ℂ) + (Real.sin a : ℂ) * (Real.sin a : ℂ) = 1 := by
  have h : Real.cos a * Real.cos a + Real.sin a * Real.sin a = 1 := by
    have := Real.sin_sq_add_cos_sq a
    nlinarith [this]
  exact_mod_cast h

theorem norm2_rx (θ : ℝ) (w : Fin 2) (ψ : TwoQ) :
    norm2 (app1 (rxMat θ) w ψ) = norm2 ψ := by
  have eFF : rxMat θ false false = (Real.cos (θ / 2) : ℂ) := by simp [rxMat]
  have eTT : rxMat θ true true = (Real.cos (θ / 2) : ℂ) := by simp [rxMat]
  have eTF : rxMat θ true false = -Complex.I * (Real.sin (θ / 2) : ℂ) := by simp [rxMat]
  have eFT : rxMat θ false true = -Complex.I * (Real.sin (θ / 2) : ℂ) := by simp [rxMat]
  apply app1_norm2 <;>
    simp only [eFF, eTT, eTF, eFT] <;>
    simp only [map_mul, map_neg, Complex.conj_I, Complex.conj_ofReal] <;>
    first
      | (linear_combination cos_sq_add_sin_sq_complex (θ / 2)
          + (-((Real.sin (θ / 2) : ℂ) * (Real.sin (θ / 2) : ℂ))) * Complex.I_mul_I)
      | ring

theorem norm2_ry (θ : ℝ) (w : Fin 2) (ψ : TwoQ) :
    norm2 (app1 (ryMat θ) w ψ) = norm2 ψ := by
  have eFF : ryMat θ false false = (Real.cos (θ / 2) : ℂ) := by simp [ryMat]
  have eTT : ryMat θ true true = (Real.cos (θ / 2) : ℂ) := by simp [ryMat]
  have eFT : ryMat θ false true = -(Real.sin (θ / 2) : ℂ) := by simp [ryMat]
  have eTF : ryMat θ true false = (Real.sin (θ / 2) : ℂ) := by simp [ryMat]
  apply app1_norm2 <;>
    simp only [eFF, eTT, eFT, eTF] <;>
    simp only [map_neg, Complex.conj_ofReal] <;>
    first
      | linear_combination cos_sq_add_sin_sq_complex (θ / 2)
      | ring

theorem norm2_rz (θ : ℝ) (w : Fin 2) (ψ : TwoQ) :
    norm2 (app1 (rzMat θ) w ψ) = norm2 ψ := by
  have eFF : rzMat θ false false = Complex.exp (-(Complex.I * (θ / 2 : ℝ))) := by simp [rzMat]
  have eTT : rzMat θ true true = Complex.exp (Complex.I * (θ / 2 : ℝ)) := by simp [rzMat]
  have eFT : rzMat θ false true = 0 := by simp [rzMat]
  have eTF : rzMat θ true false = 0 := by simp [rzMat]
  have hexp : ∀ z : ℂ, conj (Complex.exp z) * Complex.exp z = Complex.exp (conj z + z) := by
    intro z
    rw [← Complex.exp_conj, ← Complex.exp_add]
  have hconj : conj (Complex.I * ((θ / 2 : ℝ) : ℂ)) = -(Complex.I * ((θ / 2 : ℝ) : ℂ)) := by
    rw [map_mul, Complex.conj_I, Complex.conj_ofReal]
    ring
  have hcF : conj (-(Complex.I * ((θ / 2 : ℝ) : ℂ))) + -(Complex.I * ((θ / 2 : ℝ) : ℂ)) = 0 := by
    rw [map_neg, hconj]
    ring
  have hcT : conj (Complex.I * ((θ / 2 : ℝ) : ℂ)) + Complex.I * ((θ / 2 : ℝ) : ℂ) = 0 := by
    rw [hconj]
    ring
  apply app1_norm2
  · simp only [eFF, eTF, map_zero, mul_zero, zero_mul, add_zero]
    rw [hexp, hcF, Complex.exp_zero]
  · simp only [eTT, eFT, map_zero, mul_zero, zero_mul, zero_add]
    rw [hexp, hcT, Complex.exp_zero]
  · simp only [eFF, eFT, eTF, eTT, map_zero, mul_zero, zero_mul, add_zero]
  · simp only [eFF, eFT, eTF, eTT, map_zero, mul_zero, zero_mul, add_zero]

theorem norm2_cnot10 (ψ : TwoQ) : norm2 (appCNOT 1 0 ψ) = norm2 ψ := by
  have hne : ((1 : Fin 2) = 0) = False := by simp
  simp only [norm2, appCNOT, hne, if_false, if_pos rfl, Fintype.sum_bool]
  norm_num [Bool.xor_true, Bool.xor_false]
  ring

theorem norm2_fe (x : ℝ × ℝ) (ψ : TwoQ) :
    norm2 (applyOps (feature_encoding_hamiltonian x) ψ) = norm2 ψ := by
  show norm2 (applyOp (Op.rx x.2 1) (applyOp (Op.rx x.1 0) ψ)) = norm2 ψ
  simp only [applyOp]
  rw [norm2_rx, norm2_rx]

theorem norm2_ising (w : ℝ × ℝ × ℝ) (ψ : TwoQ) :
    norm2 (applyOps (ising_hamiltonian w) ψ) = norm2 ψ := by
  show norm2 (applyOp (Op.ry w.2.2 1) (applyOp (Op.ry w.2.1 0) (applyOp (Op.cnot 1 0)
    (applyOp (Op.rz w.1 0) (applyOp (Op.cnot 1 0) ψ))))) = norm2 ψ
  simp only [applyOp]
  rw [norm2_ry, norm2_ry, norm2_cnot10, norm2_rz, norm2_cnot10]

theorem norm2_chain (x : ℝ × ℝ) (ws : List (ℝ × ℝ × ℝ)) (ψ : TwoQ) :
    norm2 (applyOps
      ((ws.map fun w => feature_encoding_hamiltonian x ++ ising_hamiltonian w).flatten
        ++ feature_encoding_hamiltonian x) ψ) = norm2 ψ := by
  induction ws generalizing ψ with
  | nil => simpa using norm2_fe x ψ
  | cons w ws ih =>
    rw [List.map_cons, List.flatten_cons, List.append_assoc, applyOps_append, ih,
      applyOps_append, norm2_ising, norm2_fe]

theorem norm2_init2 : norm2 init2 = 1 := by
  simp [norm2, init2, Fintype.sum_bool]

/-- The ansatz embeds every feature pair into a unit-norm state. -/
theorem norm2_embedState (x : ℝ × ℝ) (ws : List (ℝ × ℝ × ℝ)) :
    norm2 (embedState x ws) = 1 := by
  unfold embedState
  rw [QAOAEmbedding_join, norm2_chain, norm2_init2]

theorem inner2_conj (ψ φ : TwoQ) : inner2 ψ φ = conj (inner2 φ ψ) := by
  simp only [inner2, Fintype.sum_bool, map_add, map_mul, Complex.conj_conj]
  ring

theorem inner2_prod (ψ φ : TwoQ) :
    inner2 ψ φ = ∑ p : Bool × Bool, conj (ψ p.1 p.2) * φ p.1 p.2 := by
  rw [Fintype.sum_prod_type]
  rfl

theorem norm2_prod (ψ : TwoQ) :
    norm2 ψ = ∑ p : Bool × Bool, (Complex.abs (ψ p.1 p.2)) ^ 2 := by
  simp only [Complex.sq_abs]
  rw [Fintype.sum_prod_type]
  rfl

/-- Cauchy-Schwarz for the register inner product. -/
theorem normSq_inner2_le (ψ φ : TwoQ) :
    Complex.normSq (inner2 ψ φ) ≤ norm2 ψ * norm2 φ := by
  have h1 : Complex.abs (inner2 ψ φ)
      ≤ ∑ p : Bool × Bool, Complex.abs (ψ p.1 p.2) * Complex.abs (φ p.1 p.2) := by
    rw [inner2_prod]
    refine le_trans (AbsoluteValue.sum_le Complex.abs Finset.univ _) ?_
    refine Finset.sum_le_sum fun p _ => ?_
    rw [map_mul, Complex.abs_conj]
  have h2 : (∑ p : Bool × Bool, Complex.abs (ψ p.1 p.2) * Complex.abs (φ p.1 p.2)) ^ 2
      ≤ (∑ p : Bool × Bool, (Complex.abs (ψ p.1 p.2)) ^ 2)
        * (∑ p : Bool × Bool, (Complex.abs (φ p.1 p.2)) ^ 2) :=
    Finset.sum_mul_sq_le_sq_mul_sq _ _ _
  calc Complex.normSq (inner2 ψ φ) = (Complex.abs (inner2 ψ φ)) ^ 2 := (Complex.sq_abs _).symm
    _ ≤ (∑ p : Bool × Bool, Complex.abs (ψ p.1 p.2) * Complex.abs (φ p.1 p.2)) ^ 2 :=
        pow_le_pow_left₀ (AbsoluteValue.nonneg _ _) h1 2
    _ ≤ _ := h2
    _ = norm2 ψ * norm2 φ := by rw [← norm2_prod, ← norm2_prod]

/-- Every swap-test value lies in [0, 1]. -/
theorem swap_test_mem (q : List (ℝ × ℝ × ℝ)) (x1 x2 : ℝ × ℝ) :
    0 ≤ swap_test q x1 x2 ∧ swap_test q x1 x2 ≤ 1 := by
  rw [swap_test_eq]
  constructor
  · exact Complex.normSq_nonneg _
  · have h := normSq_inner2_le (embedState x1 q) (embedState x2 q)
    rw [norm2_embedState, norm2_embedState] at h
    simpa using h

/-- The swap test is symmetric in its two embedded points. -/
theorem swap_test_symm (q : List (ℝ × ℝ × ℝ)) (x1 x2 : ℝ × ℝ) :
    swap_test q x1 x2 = swap_test q x2 x1 := by
  rw [swap_test_eq, swap_test_eq, inner2_conj, Complex.normSq_conj]

/-- The swap test of a point against itself is exactly 1. -/
theorem swap_test_self (q : List (ℝ × ℝ × ℝ)) (x : ℝ × ℝ) :
    swap_test q x x = 1 := by
  rw [swap_test_eq, inner2_self, norm2_embedState]
  simp

/-- The nested accumulation of `overlaps` is the sum over the explicit
list of ordered pairs. -/
theorem pairSum_product {n : ℕ} (w : Pars n) (X1 X2 : List (Fin n → ℝ)) :
    (X1.map fun x1 => (X2.map fun x2 =>
      swap_test w.quantum (matvec w.linear x1) (matvec w.linear x2)).sum).sum
      = ((X1 ×ˢ X2).map fun p => overlap w p.1 p.2).sum := by
  induction X1 with
  | nil => simp
  | cons x X1 ih =>
    simp only [List.map_cons, List.sum_cons, List.product_cons, List.map_append,
      List.sum_append, List.map_map, ih, Function.comp_def, overlap]

theorem list_sum_nonneg {α : Type} (l : List α) (f : α → ℝ) (h : ∀ x ∈ l, 0 ≤ f x) :
    0 ≤ (l.map f).sum := by
  induction l with
  | nil => simp
  | cons x l ih =>
    simp only [List.map_cons, List.sum_cons]
    have h1 := h x (by simp)
    have h2 := ih fun y hy => h y (by simp [hy])
    linarith

theorem list_sum_le_mul {α : Type} (l : List α) (f : α → ℝ) (c : ℝ) (h : ∀ x ∈ l, f x ≤ c) :
    (l.map f).sum ≤ (l.length : ℝ) * c := by
  induction l with
  | nil => simp
  | cons x l ih =>
    simp only [List.map_cons, List.sum_cons, List.length_cons]
    have h1 := h x (by simp)
    have h2 := ih fun y hy => h y (by simp [hy])
    push_cast
    nlinarith

theorem overlaps_singleton {n : ℕ} (w : Pars n) (a b : Fin n → ℝ) :
    overlaps w [a] [b] = overlap w a b := by
  simp [overlaps, overlap]

theorem foldl_tally_choice0 {n : ℕ} (w : Pars n) (pool : List ((Fin n → ℝ) × ℝ))
    (Aval Bval : List (Fin n → ℝ)) (rnd : ℕ → ℕ → Fin pool.length) (ns : ℕ)
    (l : List ℕ) (t : Tally) :
    (l.foldl (predictStep w pool Aval Bval rnd ns 0) t).tp
        + (l.foldl (predictStep w pool Aval Bval rnd ns 0) t).fn
        = t.tp + t.fn + l.length
      ∧ (l.foldl (predictStep w pool Aval Bval rnd ns 0) t).fp = t.fp
      ∧ (l.foldl (predictStep w pool Aval Bval rnd ns 0) t).tn = t.tn := by
  induction l generalizing t with
  | nil => simp
  | cons i l ih =>
    simp only [List.foldl_cons, List.length_cons]
    obtain ⟨h1, h2, h3⟩ := ih (predictStep w pool Aval Bval rnd ns 0 t i)
    have hstep : (predictStep w pool Aval Bval rnd ns 0 t i).tp
          + (predictStep w pool Aval Bval rnd ns 0 t i).fn = t.tp + t.fn + 1
        ∧ (predictStep w pool Aval Bval rnd ns 0 t i).fp = t.fp
        ∧ (predictStep w pool Aval Bval rnd ns 0 t i).tn = t.tn := by
      simp only [predictStep]
      split_ifs <;> simp_all <;> omega
    obtain ⟨s1, s2, s3⟩ := hstep
    refine ⟨?_, by rw [h2, s2], by rw [h3, s3]⟩
    rw [h1, s1]
    omega

theorem foldl_tally_choice1 {n : ℕ} (w : Pars n) (pool : List ((Fin n → ℝ) × ℝ))
    (Aval Bval : List (Fin n → ℝ)) (rnd : ℕ → ℕ → Fin pool.length) (ns : ℕ)
    (l : List ℕ) (t : Tally) :
    (l.foldl (predictStep w pool Aval Bval rnd ns 1) t).fp
        + (l.foldl (predictStep w pool Aval Bval rnd ns 1) t).tn
        = t.fp + t.tn + l.length
      ∧ (l.foldl (predictStep w pool Aval Bval rnd ns 1) t).tp = t.tp
      ∧ (l.foldl (predictStep w pool Aval Bval rnd ns 1) t).fn = t.fn := by
  induction l generalizing t with
  | nil => simp
  | cons i l ih =>
    simp only [List.foldl_cons, List.length_cons]
    obtain ⟨h1, h2, h3⟩ := ih (predictStep w pool Aval Bval rnd ns 1 t i)
    have hstep : (predictStep w pool Aval Bval rnd ns 1 t i).fp
          + (predictStep w pool Aval Bval rnd ns 1 t i).tn = t.fp + t.tn + 1
        ∧ (predictStep w pool Aval Bval rnd ns 1 t i).tp = t.tp
        ∧ (predictStep w pool Aval Bval rnd ns 1 t i).fn = t.fn := by
      simp only [predictStep]
      split_ifs <;> simp_all <;> omega
    obtain ⟨s1, s2, s3⟩ := hstep
    refine ⟨?_, by rw [h2, s2], by rw [h3, s3]⟩
    rw [h1, s1]
    omega

theorem countP_chain (x : ℝ × ℝ) (ws : List (ℝ × ℝ × ℝ)) (p : Op → Bool) (a b : ℕ)
    (hfe : (feature_encoding_hamiltonian x).countP p = a)
    (hising : ∀ w, (ising_hamiltonian w).countP p = b) :
    (QAOAEmbedding x ws).countP p = ws.length * (a + b) + a := by
  rw [QAOAEmbedding_join]
  induction ws with
  | nil => simpa using hfe
  | cons w ws ih =>
    rw [List.map_cons, List.flatten_cons, List.append_assoc, List.countP_append,
      List.countP_append, hfe, hising, ih]
    simp only [List.length_cons]
    ring

theorem qdiv_fault_iff (x y : ℚ) : qdiv x y = PyResult.zeroDivisionFault ↔ y = 0 := by
  unfold qdiv
  split_ifs with h <;> simp [h]

/-- The source's nested accumulation agrees with the spec's description of
`mean_overlap` for all argument lists. -/
theorem overlaps_eq_mean {n : ℕ} (w : Pars n) (X Y : List (Fin n → ℝ)) :
    overlaps w X Y = mean_overlap w X Y := by
  unfold overlaps mean_overlap
  rw [pairSum_product]

/-! Claim theorems. -/

/-- Claim C1: for every parameter bundle and non-empty classes A and B,
`cost(weights, A, B)` equals `1 - 0.5 * d` with
`d = -2*ab + (aa + bb)` built from the mean overlaps, and no clamping is
applied to the result. -/
theorem cost_hs_formula {n : ℕ} (w : Pars n) (A B : List (Fin n → ℝ))
    (hA : A ≠ []) (hB : B ≠ []) :
    cost w A B
      = 1 - 0.5 * (-2 * mean_overlap w A B
          + (mean_overlap w A A + mean_overlap w B B)) := by
  unfold cost
  rw [overlaps_eq_mean, overlaps_eq_mean, overlaps_eq_mean]

/-- Witness for claim C1 at a concrete parameter bundle and classes. -/
theorem cost_hs_formula_witness :
    (([vecZero] : List (Fin 1 → ℝ)) ≠ [] ∧ ([vecZero] : List (Fin 1 → ℝ)) ≠ [])
    ∧ cost parsZero [vecZero] [vecZero]
        = 1 - 0.5 * (-2 * mean_overlap parsZero [vecZero] [vecZero]
            + (mean_overlap parsZero [vecZero] [vecZero]
              + mean_overlap parsZero [vecZero] [vecZero])) :=
  ⟨⟨by simp, by simp⟩,
    cost_hs_formula parsZero [vecZero] [vecZero] (by simp) (by simp)⟩

/-- Claim C2: for non-empty X1 and X2, `mean_overlap` (the source's
`overlaps`) is the arithmetic mean of the single-pair `overlap` over every
ordered pair (self-pairs included), i.e. the sum over the pair list of
length `len(X1)*len(X2)` divided by `len(X1)*len(X2)`. -/
theorem overlaps_is_pair_mean {n : ℕ} (w : Pars n) (X1 X2 : List (Fin n → ℝ))
    (h1 : X1 ≠ []) (h2 : X2 ≠ []) :
    overlaps w X1 X2
        = ((X1 ×ˢ X2).map fun p => overlap w p.1 p.2).sum
          / ((X1.length : ℝ) * (X2.length : ℝ))
      ∧ (X1 ×ˢ X2).length = X1.length * X2.length := by
  constructor
  · unfold overlaps
    rw [pairSum_product]
  · exact List.length_product _ _

/-- Witness for claim C2 at a concrete parameter bundle and lists. -/
theorem overlaps_is_pair_mean_witness :
    (([vecZero] : List (Fin 1 → ℝ)) ≠ [] ∧ ([vecZero] : List (Fin 1 → ℝ)) ≠ [])
    ∧ (overlaps parsZero [vecZero] [vecZero]
        = ((([vecZero] : List (Fin 1 → ℝ)) ×ˢ ([vecZero] : List (Fin 1 → ℝ))).map
            fun p => overlap parsZero p.1 p.2).sum
          / ((([vecZero] : List (Fin 1 → ℝ)).length : ℝ)
            * (([vecZero] : List (Fin 1 → ℝ)).length : ℝ))
      ∧ (([vecZero] : List (Fin 1 → ℝ)) ×ˢ ([vecZero] : List (Fin 1 → ℝ))).length
        = ([vecZero] : List (Fin 1 → ℝ)).length * ([vecZero] : List (Fin 1 → ℝ)).length) :=
  ⟨⟨by simp, by simp⟩,
    overlaps_is_pair_mean parsZero [vecZero] [vecZero] (by simp) (by simp)⟩

/-- Claim C3: the classifier's score over an explicit draw stream equals
the sum of `label * overlap(pars, sample, query)` over the `n_samples`
draws divided by `n_samples`, and the query is called "Bee" (class A,
label -1) exactly when the score is strictly negative. -/
theorem predictScore_formula {n : ℕ} (w : Pars n) (pool : List ((Fin n → ℝ) × ℝ))
    (rnd : ℕ → Fin pool.length) (n_samples : ℕ) (x_new : Fin n → ℝ)
    (h : 1 ≤ n_samples) :
    predictScoreN w pool rnd n_samples x_new
        = (((List.range n_samples).map fun s =>
            (pool.get (rnd s)).2 * overlap w (pool.get (rnd s)).1 x_new).sum)
          / (n_samples : ℝ)
      ∧ (predictedClass (predictScoreN w pool rnd n_samples x_new) = "Bee"
          ↔ predictScoreN w pool rnd n_samples x_new < 0) := by
  constructor
  · simp only [predictScoreN, overlaps_singleton]
  · unfold predictedClass
    constructor
    · intro hb
      by_contra hge
      rw [if_neg hge] at hb
      exact absurd hb (by decide)
    · intro hlt
      rw [if_pos hlt]

/-- Witness for claim C3 at a concrete pool, draw stream and query. -/
theorem predictScore_formula_witness :
    1 ≤ 1
    ∧ (predictScoreN parsZero poolZero rndZero 1 vecZero
        = (((List.range 1).map fun s =>
            (poolZero.get (rndZero s)).2 * overlap parsZero (poolZero.get (rndZero s)).1 vecZero).sum)
          / ((1 : ℕ) : ℝ)
      ∧ (predictedClass (predictScoreN parsZero poolZero rndZero 1 vecZero) = "Bee"
          ↔ predictScoreN parsZero poolZero rndZero 1 vecZero < 0)) :=
  ⟨le_refl 1, predictScore_formula parsZero poolZero rndZero 1 vecZero (le_refl 1)⟩

/-- Claim C4: a `predict` call with `choice = 0` evaluates
`pred_high - pred_low` class-A queries and splits them between true
positives and false negatives (false positives and true negatives stay 0);
with `choice = 1` it splits the class-B queries between false positives
and true negatives. -/
theorem predict_confusion_sums {n : ℕ} (w : Pars n) (pool : List ((Fin n → ℝ) × ℝ))
    (Aval Bval : List (Fin n → ℝ)) (rnd : ℕ → ℕ → Fin pool.length)
    (n_samples pred_low pred_high : ℕ) :
    ((predict w pool Aval Bval rnd n_samples pred_low pred_high 0).tp
        + (predict w pool Aval Bval rnd n_samples pred_low pred_high 0).fn
        = pred_high - pred_low
      ∧ (predict w pool Aval Bval rnd n_samples pred_low pred_high 0).fp = 0
      ∧ (predict w pool Aval Bval rnd n_samples pred_low pred_high 0).tn = 0)
    ∧ ((predict w pool Aval Bval rnd n_samples pred_low pred_high 1).fp
        + (predict w pool Aval Bval rnd n_samples pred_low pred_high 1).tn
        = pred_high - pred_low
      ∧ (predict w pool Aval Bval rnd n_samples pred_low pred_high 1).tp = 0
      ∧ (predict w pool Aval Bval rnd n_samples pred_low pred_high 1).fn = 0) := by
  constructor
  · have h := foldl_tally_choice0 w pool Aval Bval rnd n_samples
      (List.range' pred_low (pred_high - pred_low)) { tp := 0, fn := 0, fp := 0, tn := 0 }
    unfold predict
    simpa [List.length_range'] using h
  · have h := foldl_tally_choice1 w pool Aval Bval rnd n_samples
      (List.range' pred_low (pred_high - pred_low)) { tp := 0, fn := 0, fp := 0, tn := 0 }
    unfold predict
    simpa [List.length_range'] using h

/-- Counterexample for claim C5: at the all-zero tally (zero predicted
positives) the source's precision computation raises a raw
division-by-zero fault; it is not guarded into an undefined-metric
report as the claim asserts. -/
theorem metrics_unguarded_cex :
    precisionOf { tp := 0, fn := 0, fp := 0, tn := 0 } = PyResult.zeroDivisionFault
      ∧ precisionOf { tp := 0, fn := 0, fp := 0, tn := 0 }
        ≠ precisionGuardedSpec { tp := 0, fn := 0, fp := 0, tn := 0 } := by
  constructor
  · simp [precisionOf, qdiv]
  · simp [precisionOf, qdiv, precisionGuardedSpec]

/-- Claim C5 (amended): division-by-zero in the derived metrics is NOT
guarded: each metric raises a raw `ZeroDivisionError` exactly when its
denominator is zero (for F1, exactly when there are no true positives),
and no metric ever produces an "undefined metric" report. -/
theorem metrics_unguarded (t : Tally) :
    (precisionOf t = PyResult.zeroDivisionFault ↔ t.tp + t.fp = 0)
    ∧ (recallOf t = PyResult.zeroDivisionFault ↔ t.tp + t.fn = 0)
    ∧ (accuracyOf t = PyResult.zeroDivisionFault ↔ t.tp + t.fn + t.fp + t.tn = 0)
    ∧ (specificityOf t = PyResult.zeroDivisionFault ↔ t.tn + t.fp = 0)
    ∧ (f1Of t = PyResult.zeroDivisionFault ↔ t.tp = 0)
    ∧ precisionOf t ≠ PyResult.undefinedMetricReport := by
  refine ⟨?_, ?_, ?_, ?_, ?_, ?_⟩
  · rw [precisionOf, qdiv_fault_iff]
    norm_cast
  · rw [recallOf, qdiv_fault_iff]
    norm_cast
  · rw [accuracyOf, qdiv_fault_iff]
    norm_cast
  · rw [specificityOf, qdiv_fault_iff]
    norm_cast
  · by_cases htp : t.tp = 0
    · simp only [htp, iff_true]
      by_cases hfp : t.tp + t.fp = 0
      · have h1 : precisionOf t = PyResult.zeroDivisionFault := by
          rw [precisionOf, qdiv_fault_iff]
          exact_mod_cast hfp
        simp [f1Of, h1, PyResult.bind]
      · have hfp' : ((t.tp : ℚ) + (t.fp : ℚ)) ≠ 0 := by
          intro hc
          exact hfp (by exact_mod_cast hc)
        by_cases hfn : t.tp + t.fn = 0
        · have h2 : recallOf t = PyResult.zeroDivisionFault := by
            rw [recallOf, qdiv_fault_iff]
            exact_mod_cast hfn
          simp [f1Of, precisionOf, qdiv, hfp', h2, PyResult.bind]
        · have hfp2 : t.fp ≠ 0 := by omega
          have hfn2 : t.fn ≠ 0 := by omega
          simp [f1Of, precisionOf, recallOf, qdiv, htp, hfp2, hfn2, PyResult.bind]
    · simp only [htp, iff_false]
      have h0 : (0 : ℚ) < (t.tp : ℚ) := by
        exact_mod_cast Nat.pos_of_ne_zero htp
      have hfp' : ((t.tp : ℚ) + (t.fp : ℚ)) ≠ 0 := by
        have : (0 : ℚ) ≤ (t.fp : ℚ) := Nat.cast_nonneg _
        linarith
      have hfn' : ((t.tp : ℚ) + (t.fn : ℚ)) ≠ 0 := by
        have : (0 : ℚ) ≤ (t.fn : ℚ) := Nat.cast_nonneg _
        linarith
      have hp : (0 : ℚ) < (t.tp : ℚ) / ((t.tp : ℚ) + (t.fp : ℚ)) := by
        have : (0 : ℚ) ≤ (t.fp : ℚ) := Nat.cast_nonneg _
        exact div_pos h0 (by linarith)
      have hr : (0 : ℚ) < (t.tp : ℚ) / ((t.tp : ℚ) + (t.fn : ℚ)) := by
        have : (0 : ℚ) ≤ (t.fn : ℚ) := Nat.cast_nonneg _
        exact div_pos h0 (by linarith)
      have hpr : (t.tp : ℚ) / ((t.tp : ℚ) + (t.fp : ℚ))
          + (t.tp : ℚ) / ((t.tp : ℚ) + (t.fn : ℚ)) ≠ 0 := by
        linarith
      simp [f1Of, precisionOf, recallOf, qdiv, hfp', hfn', hpr, PyResult.bind]
  · rw [precisionOf, qdiv]
    split_ifs <;> simp

/-- Claim C6: the overlap of a point with itself, as computed by the
evaluator on singleton lists, is exactly 1 for every parameter bundle. -/
theorem overlap_self_eq_one {n : ℕ} (w : Pars n) (x : Fin n → ℝ) :
    overlaps w [x] [x] = 1 := by
  rw [overlaps_singleton]
  unfold overlap
  exact swap_test_self _ _

/-- Claim C7: the overlap is symmetric in its two points for every
parameter bundle. -/
theorem overlap_symmetric {n : ℕ} (w : Pars n) (a b : Fin n → ℝ) :
    overlap w a b = overlap w b a := by
  unfold overlap
  exact swap_test_symm _ _ _

/-- Claim C8: for non-empty lists the value returned by the overlap
evaluator lies in [0, 1]; it is the plain mean of swap-test expectations,
with no affine rescaling. -/
theorem overlaps_in_unit_interval {n : ℕ} (w : Pars n) (X1 X2 : List (Fin n → ℝ))
    (h1 : X1 ≠ []) (h2 : X2 ≠ []) :
    0 ≤ overlaps w X1 X2 ∧ overlaps w X1 X2 ≤ 1 := by
  have hN1 : 0 < (X1.length : ℝ) := by
    exact_mod_cast List.length_pos.mpr h1
  have hN2 : 0 < (X2.length : ℝ) := by
    exact_mod_cast List.length_pos.mpr h2
  have hS0 : 0 ≤ (X1.map fun x1 => (X2.map fun x2 =>
      swap_test w.quantum (matvec w.linear x1) (matvec w.linear x2)).sum).sum :=
    list_sum_nonneg _ _ fun x1 _ =>
      list_sum_nonneg _ _ fun x2 _ => (swap_test_mem _ _ _).1
  have hS1 : (X1.map fun x1 => (X2.map fun x2 =>
      swap_test w.quantum (matvec w.linear x1) (matvec w.linear x2)).sum).sum
      ≤ (X1.length : ℝ) * (X2.length : ℝ) := by
    refine le_trans (list_sum_le_mul _ _ ((X2.length : ℝ)) fun x1 _ => ?_) le_rfl
    have := list_sum_le_mul X2
      (fun x2 => swap_test w.quantum (matvec w.linear x1) (matvec w.linear x2)) 1
      fun x2 _ => (swap_test_mem _ _ _).2
    simpa using this
  unfold overlaps
  constructor
  · exact div_nonneg hS0 (mul_pos hN1 hN2).le
  · rw [div_le_one (mul_pos hN1 hN2)]
    exact hS1

/-- Witness for claim C8 at a concrete parameter bundle and lists. -/
theorem overlaps_in_unit_interval_witness :
    (([vecZero] : List (Fin 1 → ℝ)) ≠ [] ∧ ([vecZero] : List (Fin 1 → ℝ)) ≠ [])
    ∧ (0 ≤ overlaps parsZero [vecZero] [vecZero]
        ∧ overlaps parsZero [vecZero] [vecZero] ≤ 1) :=
  ⟨⟨by simp, by simp⟩,
    overlaps_in_unit_interval parsZero [vecZero] [vecZero] (by simp) (by simp)⟩

/-- Claim C9: the ansatz emits exactly, for each of the L layers, the
feature-encoding rotations followed by the coupling (CNOT, RZ by the
layer's first weight, CNOT) and the local-field rotations by the layer's
remaining weights, then the feature-encoding layer once more: L+1
feature-encoding applications (2(L+1) RX gates) and L coupling/local-field
applications (2L CNOT, L RZ, 2L RY gates). -/
theorem QAOAEmbedding_structure (x : ℝ × ℝ) (ws : List (ℝ × ℝ × ℝ)) :
    QAOAEmbedding x ws
        = ((ws.map fun w => feature_encoding_hamiltonian x ++ ising_hamiltonian w).flatten)
          ++ feature_encoding_hamiltonian x
      ∧ (QAOAEmbedding x ws).countP Op.isRX = 2 * (ws.length + 1)
      ∧ (QAOAEmbedding x ws).countP Op.isCNOT = 2 * ws.length
      ∧ (QAOAEmbedding x ws).countP Op.isRZ = ws.length
      ∧ (QAOAEmbedding x ws).countP Op.isRY = 2 * ws.length := by
  refine ⟨QAOAEmbedding_join x ws, ?_, ?_, ?_, ?_⟩
  · have h := countP_chain x ws Op.isRX 2 0
      (by simp [feature_encoding_hamiltonian, Op.isRX])
      (by intro w; simp [ising_hamiltonian, Op.isRX])
    rw [h]
    ring
  · have h := countP_chain x ws Op.isCNOT 0 2
      (by simp [feature_encoding_hamiltonian, Op.isCNOT])
      (by intro w; simp [ising_hamiltonian, Op.isCNOT])
    rw [h]
    ring
  · have h := countP_chain x ws Op.isRZ 0 1
      (by simp [feature_encoding_hamiltonian, Op.isRZ])
      (by intro w; simp [ising_hamiltonian, Op.isRZ])
    rw [h]
    ring
  · have h := countP_chain x ws Op.isRY 0 2
      (by simp [feature_encoding_hamiltonian, Op.isRY])
      (by intro w; simp [ising_hamiltonian, Op.isRY])
    rw [h]
    ring

/-- Claim C10: `overlaps` raises a division-by-zero fault exactly when one
of its argument lists is empty; non-emptiness is an unstated precondition
of the evaluator. -/
theorem overlapsRun_empty_fault {n : ℕ} (w : Pars n) (X1 X2 : List (Fin n → ℝ)) :
    overlapsRun w X1 X2 = PyResult.zeroDivisionFault ↔ (X1 = [] ∨ X2 = []) := by
  constructor
  · intro hf
    by_contra hne
    push_neg at hne
    obtain ⟨hx1, hx2⟩ := hne
    have hlen : X1.length * X2.length ≠ 0 := by
      simp [Nat.mul_eq_zero, List.length_eq_zero, hx1, hx2]
    simp [overlapsRun, rdivNat, hlen] at hf
  · intro he
    have hlen : X1.length * X2.length = 0 := by
      rcases he with h | h <;> simp [h]
    simp [overlapsRun, rdivNat, hlen]

end EmbGen

end
